import Mathlib

/-!
Verification of the reveal-state engines of the word-connector repository.

Two engines are embedded, each translated from its source file:

* the Chain Reaction reveal engine (`GameState` in `src/main.py`):
  a list of words with per-letter reveal flags and a per-word
  "withheld last letter" flag, with operations `word_mask`,
  `reveal_next_letter`, `is_word_complete`, `try_guess`, and the
  caller-level `_is_puzzle_solved`;
* the Pyramid gate engine (`GameState`/`HostWindow`/`DisplayWindow` in
  `src/pyramid.py`): six prompts, six correctness flags, a reveal cursor
  and a display timer, with operations `current_index`, `mark_correct`,
  `send_to_display`, `unmark_all`.

Strings are modelled as `List Char`; Python `str.strip()` and
`str.upper()` become `pyStrip` and `pyUpper`.
-/

namespace WordConnector

/-- Python `str.strip()`: drop whitespace from both ends. -/
def pyStrip (s : List Char) : List Char :=
  ((s.dropWhile Char.isWhitespace).reverse.dropWhile Char.isWhitespace).reverse

/-- Python `str.upper()` (ASCII-adequate model). -/
def pyUpper (s : List Char) : List Char :=
  s.map Char.toUpper

/-! ## Chain Reaction engine (src/main.py, class GameState) -/

/-- The state held by `GameState` in `src/main.py`. -/
structure ChainState where
  words : List (List Char)
  revealed : List (List Bool)
  withheld_last : List Bool
  deriving Repr, DecidableEq

/-- `GameState.__init__`: requires at least 3 words (else `ValueError`),
stores each word trimmed and uppercased, marks the first and last word
fully revealed and interior words fully hidden, and clears every
`withheld_last` flag. -/
def mkGameState (ws : List (List Char)) : Option ChainState :=
  if ws.length < 3 then none
  else
    let words := ws.map (fun w => pyUpper (pyStrip w))
    some { words := words
           revealed := words.enum.map (fun p =>
             if p.1 = 0 ∨ p.1 = words.length - 1 then
               List.replicate p.2.length true
             else
               List.replicate p.2.length false)
           withheld_last := List.replicate words.length false }

/-- `App.load_chain_from_text`: strip each input line, keep the non-blank
ones, require at least 3, and build a `GameState` from them.  (Splitting
the raw text into lines is host input parsing, outside the engine; the
list of raw lines is taken as given.) -/
def load_chain (rawLines : List (List Char)) : Option ChainState :=
  let lines := (rawLines.map pyStrip).filter (fun l => l ≠ [])
  if lines.length < 3 then none
  else mkGameState lines

/-- `GameState.word_mask`: endpoints show fully; interior words show the
revealed letters only, with `" ?"` appended (or just `"?"` when nothing
is shown) when the last letter was withheld and the word is incomplete. -/
def word_mask (st : ChainState) (idx : Nat) : List Char :=
  let w := st.words.getD idx []
  let flags := st.revealed.getD idx []
  if idx = 0 ∨ idx = st.words.length - 1 then w
  else
    let shown := (w.zip flags).filterMap (fun p => if p.2 then some p.1 else none)
    if st.withheld_last.getD idx false ∧ ¬ (flags.all id = true) then
      if shown ≠ [] then shown ++ [' ', '?'] else ['?']
    else shown

/-- The list `[i for i, f in enumerate(flags) if not f]` of hidden
letter positions used by `reveal_next_letter`. -/
def hiddenPositions (flags : List Bool) : List Nat :=
  flags.enum.filterMap (fun p => if p.2 then none else some p.1)

/-- `GameState.reveal_next_letter`: no-op on endpoints and complete
words; when exactly one letter is still hidden, withholds it (sets
`withheld_last`, returns `(false, true)`); otherwise reveals the
leftmost hidden letter and returns `(true, false)`.  The updated state
is returned alongside the Python return value. -/
def reveal_next_letter (st : ChainState) (idx : Nat) : ChainState × (Bool × Bool) :=
  if idx = 0 ∨ idx = st.words.length - 1 then (st, (false, false))
  else
    let flags := st.revealed.getD idx []
    let hp := hiddenPositions flags
    if hp = [] then (st, (false, false))
    else if hp.length = 1 then
      ({ st with withheld_last := st.withheld_last.set idx true }, (false, true))
    else
      ({ st with revealed := st.revealed.set idx (flags.set (hp.headD 0) true) },
       (true, false))

/-- `GameState.is_word_complete`: all reveal flags of the word are true. -/
def is_word_complete (st : ChainState) (idx : Nat) : Bool :=
  (st.revealed.getD idx []).all id

/-- `GameState.try_guess`: on a trimmed, uppercased exact match the word
is fully revealed and `withheld_last` cleared; otherwise nothing
changes.  Returns the updated state and the match result. -/
def try_guess (st : ChainState) (idx : Nat) (guess : List Char) : ChainState × Bool :=
  let target := st.words.getD idx []
  if pyUpper (pyStrip guess) = target then
    ({ st with
        revealed := st.revealed.set idx (List.replicate target.length true)
        withheld_last := st.withheld_last.set idx false }, true)
  else (st, false)

/-- `App._is_puzzle_solved`: every interior word (indices 1 .. len-2) is
complete. -/
def is_puzzle_solved (st : ChainState) : Bool :=
  (List.range' 1 (st.words.length - 2)).all (fun i => is_word_complete st i)

/-- One host-driven engine mutation: reveal the next letter of a word,
or submit a guess for a word. -/
inductive ChainOp where
  | reveal (idx : Nat)
  | guess (idx : Nat) (g : List Char)
  deriving Repr, DecidableEq

/-- Apply one operation, keeping only the state. -/
def applyOp (st : ChainState) (op : ChainOp) : ChainState :=
  match op with
  | .reveal idx => (reveal_next_letter st idx).1
  | .guess idx g => (try_guess st idx g).1

/-- Run a sequence of operations from a state. -/
def runOps (st : ChainState) (ops : List ChainOp) : ChainState :=
  ops.foldl applyOp st

/-! ## Pyramid gate engine (src/pyramid.py) -/

/-- The dataclass `GameState` in `src/pyramid.py`.  `HostWindow` and
`DisplayWindow` share one instance of it, so their mutations are
modelled as functions on this single record. -/
structure PyrState where
  prompts : List (List Char)
  correct : List Bool
  remaining_seconds : Int
  timer_running : Bool
  reveal_upto : Int
  deriving Repr, DecidableEq

/-- `GameState.all_correct`. -/
def all_correct (st : PyrState) : Bool :=
  st.correct.all id

/-- `GameState.current_index`: index of the first prompt that is not yet
correct, or -1 when all are correct. -/
def current_index (st : PyrState) : Int :=
  match st.correct.findIdx? (fun ok => !ok) with
  | some i => (i : Int)
  | none => -1

/-- `DisplayWindow.set_correct` (the state mutation; rendering is out of
scope). -/
def set_correct (st : PyrState) (index : Nat) (value : Bool) : PyrState :=
  { st with correct := st.correct.set index value }

/-- `DisplayWindow.set_reveal_upto`: clamps the cursor to 0..5. -/
def set_reveal_upto (st : PyrState) (upto_idx : Int) : PyrState :=
  { st with reveal_upto := max 0 (min 5 upto_idx) }

/-- `DisplayWindow.set_prompts`: replaces the prompt list (Python copies
the list; values are immutable here). -/
def set_prompts (st : PyrState) (prompts : List (List Char)) : PyrState :=
  { st with prompts := prompts }

/-- `HostWindow.mark_correct`: returns unchanged unless `idx` is the
current (first unsolved) prompt; otherwise marks it correct, advances
the cursor when `idx < 5`, pushes both through the display setters, and
on the all-six win stops the timer (`_do_all_six` calls `stop_timer`).
The index is an `Int` so that out-of-range calls such as -1 are
expressible. -/
def mark_correct (st : PyrState) (idx : Int) : PyrState :=
  let cur := current_index st
  if cur = -1 then st
  else if idx ≠ cur then st
  else
    let i := idx.toNat
    if st.correct.getD i false then st
    else
      let st1 := { st with correct := st.correct.set i true }
      let st2 :=
        if idx < 5 then { st1 with reveal_upto := max st1.reveal_upto (idx + 1) }
        else st1
      let st3 := set_correct st2 i true
      let st4 := set_reveal_upto st3 st3.reveal_upto
      if all_correct st4 then { st4 with timer_running := false } else st4

/-- `HostWindow.send_to_display`: store the six entry texts, recompute
the cursor from the current index (5 when everything is solved), and
push prompts and cursor through the display setters. -/
def send_to_display (st : PyrState) (entries : List (List Char)) : PyrState :=
  let st1 := { st with prompts := entries }
  let cur := current_index st1
  let st2 := { st1 with reveal_upto := if cur ≥ 0 then cur else 5 }
  let st3 := set_prompts st2 entries
  set_reveal_upto st3 st2.reveal_upto

/-- `HostWindow.unmark_all`: clear the six correctness flags and reset
the cursor to 0. -/
def unmark_all (st : PyrState) : PyrState :=
  { st with correct := List.replicate 6 false, reveal_upto := 0 }

/-- Fold `mark_correct` over a list of indices. -/
def markSeq (st : PyrState) (idxs : List Int) : PyrState :=
  idxs.foldl mark_correct st

/-! ## List helper lemmas -/

theorem getD_set_of_ne {α : Type} (l : List α) {i j : Nat} (x d : α) (h : i ≠ j) :
    (l.set i x).getD j d = l.getD j d := by
  simp [List.getD_eq_getElem?_getD, List.getElem?_set, h]

theorem getD_set_same {α : Type} (l : List α) (i : Nat) (x d : α) :
    (l.set i x).getD i d = if i < l.length then x else l.getD i d := by
  rcases Nat.lt_or_ge i l.length with h | h
  · simp [List.getD_eq_getElem?_getD, List.getElem?_set, h]
  · rw [List.set_eq_of_length_le h, if_neg (Nat.not_lt.mpr h)]

theorem getD_of_length_le {α : Type} (l : List α) {i : Nat} (d : α)
    (h : l.length ≤ i) : l.getD i d = d := by
  simp [List.getD_eq_getElem?_getD, List.getElem?_eq_none h]

theorem set_getD_self {α : Type} : ∀ (l : List α) (i : Nat) (d : α),
    l.set i (l.getD i d) = l
  | [], _, _ => rfl
  | _ :: _, 0, _ => rfl
  | a :: t, i + 1, d => congrArg (a :: ·) (set_getD_self t i d)

/-- The number of positions collected from `enumFrom` for the false flags
is the number of false flags, whatever the start index. -/
theorem length_filterMap_enumFrom : ∀ (n : Nat) (fl : List Bool),
    ((List.enumFrom n fl).filterMap
        (fun p => if p.2 then none else some p.1)).length
      = (fl.filter (fun b => !b)).length := by
  intro n fl
  induction fl generalizing n with
  | nil => rfl
  | cons a t ih =>
      cases a <;>
        simp [List.enumFrom, List.filterMap_cons, List.filter_cons, ih]

/-- `hiddenPositions` counts exactly the false flags. -/
theorem hiddenPositions_length (fl : List Bool) :
    (hiddenPositions fl).length = (fl.filter (fun b => !b)).length := by
  rw [hiddenPositions, List.enum_eq_enumFrom]
  exact length_filterMap_enumFrom 0 fl

/-- The head of a nonempty `dropWhile` result fails the predicate. -/
theorem head?_dropWhile_not {α : Type} (p : α → Bool) :
    ∀ (l : List α) (a : α), (l.dropWhile p).head? = some a → p a = false := by
  intro l
  induction l with
  | nil => intro a h; simp at h
  | cons b t ih =>
      intro a h
      rw [List.dropWhile_cons] at h
      by_cases hb : p b = true
      · exact ih a (by simpa [hb] using h)
      · simp only [hb, if_false] at h
        simp only [List.head?] at h
        cases h
        simpa using hb

/-- If `pyStrip` erases a string, that string was all whitespace. -/
theorem all_ws_of_pyStrip_eq_nil (z : List Char) (h : pyStrip z = []) :
    ∀ c ∈ z, c.isWhitespace = true := by
  intro c hc
  have h2 : (z.dropWhile Char.isWhitespace).reverse.dropWhile Char.isWhitespace = [] := by
    have := congrArg List.reverse h
    simpa [pyStrip] using this
  have h3 : ∀ x ∈ (z.dropWhile Char.isWhitespace).reverse, x.isWhitespace = true :=
    List.dropWhile_eq_nil_iff.mp h2
  have h4 : ∀ x ∈ z.dropWhile Char.isWhitespace, x.isWhitespace = true := by
    intro x hx
    exact h3 x (List.mem_reverse.mpr hx)
  have h5 : ∀ x ∈ z.takeWhile Char.isWhitespace, x.isWhitespace = true := by
    intro x hx
    exact List.mem_takeWhile_imp hx
  have hz : z = z.takeWhile Char.isWhitespace ++ z.dropWhile Char.isWhitespace :=
    (List.takeWhile_append_dropWhile _ _).symm
  rw [hz] at hc
  rcases List.mem_append.mp hc with hc | hc
  · exact h5 c hc
  · exact h4 c hc

/-- Stripping an already stripped nonempty string keeps it nonempty. -/
theorem pyStrip_pyStrip_ne_nil (x : List Char) (h : pyStrip x ≠ []) :
    pyStrip (pyStrip x) ≠ [] := by
  intro hnil
  have hall : ∀ c ∈ pyStrip x, c.isWhitespace = true :=
    all_ws_of_pyStrip_eq_nil _ hnil
  -- the last letter of `pyStrip x` is the head of the inner dropWhile
  -- result, which is not whitespace
  set B := (x.dropWhile Char.isWhitespace).reverse.dropWhile Char.isWhitespace with hB
  have hpx : pyStrip x = B.reverse := rfl
  have hBne : B ≠ [] := by
    intro hBnil
    apply h
    rw [hpx, hBnil]
    rfl
  obtain ⟨b, hb⟩ : ∃ b, B.head? = some b := ⟨B.head hBne, List.head?_eq_head hBne⟩
  have hbws : b.isWhitespace = false := head?_dropWhile_not _ _ b hb
  have hbmem : b ∈ B := by
    have := List.head?_eq_head hBne
    rw [hb] at this
    cases this
    exact List.head_mem hBne
  have : b ∈ pyStrip x := by
    rw [hpx]
    exact List.mem_reverse.mpr hbmem
  rw [hall b this] at hbws
  cases hbws

/-! ## Chain engine invariants -/

theorem words_reveal_next_letter (st : ChainState) (idx : Nat) :
    (reveal_next_letter st idx).1.words = st.words := by
  rw [reveal_next_letter]
  split
  · rfl
  · dsimp only
    split
    · rfl
    · split <;> rfl

theorem words_try_guess (st : ChainState) (idx : Nat) (g : List Char) :
    (try_guess st idx g).1.words = st.words := by
  rw [try_guess]
  split <;> rfl

theorem words_applyOp (st : ChainState) (op : ChainOp) :
    (applyOp st op).words = st.words := by
  cases op with
  | reveal idx => exact words_reveal_next_letter st idx
  | guess idx g => exact words_try_guess st idx g

theorem words_runOps (st : ChainState) (ops : List ChainOp) :
    (runOps st ops).words = st.words := by
  induction ops generalizing st with
  | nil => rfl
  | cons op t ih =>
      rw [runOps, List.foldl_cons]
      rw [show (t.foldl applyOp (applyOp st op)) = runOps (applyOp st op) t from rfl]
      rw [ih, words_applyOp]

/-- The endpoint invariant: the first and last word carry all-true
reveal flags and a cleared withheld flag. -/
def endpointInv (st : ChainState) : Prop :=
  st.revealed.getD 0 [] = List.replicate (st.words.getD 0 []).length true ∧
  st.revealed.getD (st.words.length - 1) []
    = List.replicate (st.words.getD (st.words.length - 1) []).length true ∧
  st.withheld_last.getD 0 false = false ∧
  st.withheld_last.getD (st.words.length - 1) false = false

/-- Freshly constructed states satisfy the endpoint invariant. -/
theorem endpointInv_mkGameState (ws : List (List Char)) (st : ChainState)
    (h : mkGameState ws = some st) : endpointInv st := by
  rw [mkGameState] at h
  split at h
  · cases h
  · rename_i hlen
    cases h
    have hlen3 : 3 ≤ ws.length := Nat.le_of_not_lt hlen
    have h0 : 0 < ws.length := by omega
    have hE : ws.length - 1 < ws.length := by omega
    refine ⟨?_, ?_, ?_, ?_⟩
    · simp [endpointInv, List.getD_eq_getElem?_getD, List.getElem?_map,
        List.getElem?_enum, List.getElem?_eq_getElem h0]
    · simp [endpointInv, List.getD_eq_getElem?_getD, List.getElem?_map,
        List.getElem?_enum, List.getElem?_eq_getElem hE]
    · simp [List.getD_eq_getElem?_getD, List.getElem?_replicate]
      split <;> rfl
    · simp [List.getD_eq_getElem?_getD, List.getElem?_replicate]
      split <;> rfl

/-- Both engine operations preserve the endpoint invariant. -/
theorem endpointInv_applyOp (st : ChainState) (op : ChainOp)
    (h : endpointInv st) : endpointInv (applyOp st op) := by
  obtain ⟨h1, h2, h3, h4⟩ := h
  cases op with
  | reveal idx =>
      rw [applyOp, reveal_next_letter]
      split
      · exact ⟨h1, h2, h3, h4⟩
      · rename_i hne
        push_neg at hne
        dsimp only
        split
        · exact ⟨h1, h2, h3, h4⟩
        · split
          · refine ⟨h1, h2, ?_, ?_⟩
            · dsimp only
              rw [getD_set_of_ne _ _ _ hne.1]
              exact h3
            · dsimp only
              rw [getD_set_of_ne _ _ _ hne.2]
              exact h4
          · refine ⟨?_, ?_, h3, h4⟩
            · dsimp only
              rw [getD_set_of_ne _ _ _ hne.1]
              exact h1
            · dsimp only
              rw [getD_set_of_ne _ _ _ hne.2]
              exact h2
  | guess idx g =>
      rw [applyOp, try_guess]
      split
      · dsimp only
        refine ⟨?_, ?_, ?_, ?_⟩
        · by_cases h0 : idx = 0
          · subst h0
            rw [getD_set_same]
            split
            · rfl
            · exact h1
          · rw [getD_set_of_ne _ _ _ h0]
            exact h1
        · by_cases h0 : idx = st.words.length - 1
          · subst h0
            rw [getD_set_same]
            split
            · rfl
            · exact h2
          · rw [getD_set_of_ne _ _ _ h0]
            exact h2
        · by_cases h0 : idx = 0
          · subst h0
            rw [getD_set_same]
            split
            · rfl
            · exact h3
          · rw [getD_set_of_ne _ _ _ h0]
            exact h3
        · by_cases h0 : idx = st.words.length - 1
          · subst h0
            rw [getD_set_same]
            split
            · rfl
            · exact h4
          · rw [getD_set_of_ne _ _ _ h0]
            exact h4
      · exact ⟨h1, h2, h3, h4⟩

theorem endpointInv_runOps (st : ChainState) (ops : List ChainOp)
    (h : endpointInv st) : endpointInv (runOps st ops) := by
  induction ops generalizing st with
  | nil => exact h
  | cons op t ih =>
      rw [runOps, List.foldl_cons]
      exact ih (applyOp st op) (endpointInv_applyOp st op h)

/-- The withheld invariant: a set withheld flag means exactly one
hidden letter. -/
def withheldInv (st : ChainState) : Prop :=
  ∀ i, st.withheld_last.getD i false = true →
    ((st.revealed.getD i []).filter (fun b => !b)).length = 1

theorem withheldInv_mkGameState (ws : List (List Char)) (st : ChainState)
    (h : mkGameState ws = some st) : withheldInv st := by
  rw [mkGameState] at h
  split at h
  · cases h
  · cases h
    intro i hi
    dsimp only at hi
    rcases Nat.lt_or_ge i (ws.map (fun w => pyUpper (pyStrip w))).length with hlt | hge
    · rw [List.getD_eq_getElem?_getD, List.getElem?_replicate, if_pos hlt] at hi
      cases hi
    · rw [getD_of_length_le _ _ (by simpa using hge)] at hi
      cases hi

/-- Both engine operations preserve the withheld invariant. -/
theorem withheldInv_applyOp (st : ChainState) (op : ChainOp)
    (h : withheldInv st) : withheldInv (applyOp st op) := by
  cases op with
  | reveal idx =>
      rw [applyOp, reveal_next_letter]
      split
      · exact h
      · dsimp only
        split
        · exact h
        · split
          · rename_i hone
            intro i hi
            dsimp only at hi ⊢
            by_cases hij : idx = i
            · subst hij
              rw [← hiddenPositions_length]
              exact hone
            · rw [getD_set_of_ne _ _ _ hij] at hi
              exact h i hi
          · rename_i hnil hone
            intro i hi
            dsimp only at hi ⊢
            by_cases hij : idx = i
            · subst hij
              have hc := h idx hi
              rw [← hiddenPositions_length] at hc
              exact absurd hc hone
            · rw [getD_set_of_ne _ _ _ hij]
              exact h i hi
  | guess idx g =>
      rw [applyOp, try_guess]
      split
      · intro i hi
        dsimp only at hi ⊢
        by_cases hij : idx = i
        · subst hij
          rw [getD_set_same] at hi
          split at hi
          · cases hi
          · rename_i hge
            rw [getD_of_length_le _ _ (Nat.le_of_not_lt hge)] at hi
            cases hi
        · rw [getD_set_of_ne _ _ _ hij] at hi
          rw [getD_set_of_ne _ _ _ hij]
          exact h i hi
      · exact h

theorem withheldInv_runOps (st : ChainState) (ops : List ChainOp)
    (h : withheldInv st) : withheldInv (runOps st ops) := by
  induction ops generalizing st with
  | nil => exact h
  | cons op t ih =>
      rw [runOps, List.foldl_cons]
      exact ih (applyOp st op) (withheldInv_applyOp st op h)

/-- Full description of a freshly constructed state. -/
theorem mkGameState_some (ws : List (List Char)) (st : ChainState)
    (h : mkGameState ws = some st) :
    3 ≤ ws.length ∧
    st.words = ws.map (fun w => pyUpper (pyStrip w)) ∧
    st.withheld_last = List.replicate ws.length false ∧
    ∀ i, i < ws.length →
      st.revealed.getD i []
        = if i = 0 ∨ i = ws.length - 1
          then List.replicate (st.words.getD i []).length true
          else List.replicate (st.words.getD i []).length false := by
  rw [mkGameState] at h
  split at h
  · cases h
  · rename_i hlen
    cases h
    refine ⟨Nat.le_of_not_lt hlen, rfl, by simp, ?_⟩
    intro i hi
    have hi' : i < (ws.map (fun w => pyUpper (pyStrip w))).length := by simpa using hi
    simp [List.getD_eq_getElem?_getD, List.getElem?_map, List.getElem?_enum,
      List.getElem?_eq_getElem hi', List.getElem?_eq_getElem hi]

/-! ## Concrete sample states (the SAMPLE_CHAIN of src/main.py) -/

def sampleWords : List (List Char) :=
  ["SOLAR".data, "POWER".data, "PLANT".data, "FOOD".data,
   "CHAIN".data, "LINK".data, "CARD".data]

def chainSt0 : ChainState :=
  match mkGameState sampleWords with
  | some st => st
  | none => ⟨[], [], []⟩

def chainSt1 : ChainState := (reveal_next_letter chainSt0 1).1

def chainSt2 : ChainState := (reveal_next_letter chainSt1 1).1

def chainSt3 : ChainState := (reveal_next_letter chainSt2 1).1

def chainSt4 : ChainState := (reveal_next_letter chainSt3 1).1

def chainSt5 : ChainState := (reveal_next_letter chainSt4 1).1

/-- A pyramid round in its reset state. -/
def pyrReset : PyrState :=
  { prompts := List.replicate 6 []
    correct := List.replicate 6 false
    remaining_seconds := 60
    timer_running := false
    reveal_upto := 0 }

/-- A pyramid state whose cursor sits above the current index. -/
def pyrCursor3 : PyrState := { pyrReset with reveal_upto := 3 }

/-! ## Claim theorems -/

/-- C1: on an interior word with exactly one reveal flag still false,
`reveal_next_letter` flips no reveal flag; it only sets
`withheld_last[idx]` to true and returns `(false, true)`. -/
theorem reveal_next_letter_withholds_last (st : ChainState) (idx : Nat)
    (h0 : 0 < idx) (h1 : idx < st.words.length - 1)
    (hone : ((st.revealed.getD idx []).filter (fun b => !b)).length = 1) :
    reveal_next_letter st idx
      = ({ st with withheld_last := st.withheld_last.set idx true },
         (false, true)) := by
  rw [reveal_next_letter]
  rw [if_neg (by push_neg; exact ⟨Nat.pos_iff_ne_zero.mp h0, Nat.ne_of_lt h1⟩)]
  dsimp only
  have hlen : (hiddenPositions (st.revealed.getD idx [])).length = 1 := by
    rw [hiddenPositions_length]
    exact hone
  rw [if_neg (fun hnil => by rw [hnil] at hlen; cases hlen), if_pos hlen]

theorem reveal_next_letter_withholds_last_witness :
    reveal_next_letter chainSt4 1
      = ({ chainSt4 with withheld_last := chainSt4.withheld_last.set 1 true },
         (false, true)) :=
  reveal_next_letter_withholds_last chainSt4 1 (by decide) (by decide) (by decide)

/-- C2: `mark_correct` with any index other than the current one — and
with any index at all once every prompt is correct — leaves the entire
state (prompts, correctness flags, cursor, timer fields) unchanged. -/
theorem mark_correct_noop (st : PyrState) (idx : Int)
    (h : idx ≠ current_index st ∨ current_index st = -1) :
    mark_correct st idx = st := by
  rw [mark_correct]
  dsimp only
  rcases h with h | h
  · by_cases hc : current_index st = -1
    · rw [if_pos hc]
    · rw [if_neg hc, if_pos h]
  · rw [if_pos h]

theorem mark_correct_noop_witness :
    (3 : Int) ≠ current_index pyrReset ∧ mark_correct pyrReset 3 = pyrReset :=
  ⟨by decide, mark_correct_noop pyrReset 3 (Or.inl (by decide))⟩

/-- C3 counterexample: `send_to_display` does change `reveal_upto`: on a
state with no prompt solved and the cursor at 3, it resets the cursor to
the current index 0, a regression.  (The correctness flags are indeed
untouched.) -/
theorem send_to_display_counterexample :
    (send_to_display pyrCursor3 (List.replicate 6 [])).reveal_upto
      ≠ pyrCursor3.reveal_upto := by decide

/-- C3 amended: `send_to_display` replaces the prompt texts and touches
no correctness flag and no timer field, but it recomputes the cursor:
`reveal_upto` becomes the current index (5 when all six are correct),
clamped to 0..5 — which can move, and even regress, the cursor. -/
theorem send_to_display_spec (st : PyrState) (entries : List (List Char)) :
    (send_to_display st entries).prompts = entries ∧
    (send_to_display st entries).correct = st.correct ∧
    (send_to_display st entries).remaining_seconds = st.remaining_seconds ∧
    (send_to_display st entries).timer_running = st.timer_running ∧
    (send_to_display st entries).reveal_upto
      = max 0 (min 5 (if current_index st ≥ 0 then current_index st else 5)) := by
  obtain ⟨p, c, rs, tr, ru⟩ := st
  exact ⟨rfl, rfl, rfl, rfl, rfl⟩

/-- C4: from the reset state, marking prompts 0..5 correct in order
drives the cursor 0 → 1 → 2 → 3 → 4 → 5 → 5, flips `all_correct` from
false to true exactly at the sixth call, and a subsequent `unmark_all`
restores current index 0 and cursor 0. -/
theorem pyramid_in_order_progression (st : PyrState)
    (hc : st.correct = List.replicate 6 false) (hr : st.reveal_upto = 0) :
    (markSeq st [0]).reveal_upto = 1 ∧
    (markSeq st [0, 1]).reveal_upto = 2 ∧
    (markSeq st [0, 1, 2]).reveal_upto = 3 ∧
    (markSeq st [0, 1, 2, 3]).reveal_upto = 4 ∧
    (markSeq st [0, 1, 2, 3, 4]).reveal_upto = 5 ∧
    (markSeq st [0, 1, 2, 3, 4, 5]).reveal_upto = 5 ∧
    all_correct st = false ∧
    all_correct (markSeq st [0]) = false ∧
    all_correct (markSeq st [0, 1]) = false ∧
    all_correct (markSeq st [0, 1, 2]) = false ∧
    all_correct (markSeq st [0, 1, 2, 3]) = false ∧
    all_correct (markSeq st [0, 1, 2, 3, 4]) = false ∧
    all_correct (markSeq st [0, 1, 2, 3, 4, 5]) = true ∧
    current_index (unmark_all (markSeq st [0, 1, 2, 3, 4, 5])) = 0 ∧
    (unmark_all (markSeq st [0, 1, 2, 3, 4, 5])).reveal_upto = 0 := by
  obtain ⟨p, c, rs, tr, ru⟩ := st
  dsimp only at hc hr
  subst hc
  subst hr
  refine ⟨?_, ?_, ?_, ?_, ?_, ?_, ?_, ?_, ?_, ?_, ?_, ?_, ?_, ?_, ?_⟩ <;>
    simp [markSeq, mark_correct, current_index, all_correct, set_correct,
      set_reveal_upto, unmark_all, List.findIdx?]

theorem pyramid_in_order_progression_witness :
    (markSeq pyrReset [0]).reveal_upto = 1 ∧
    (markSeq pyrReset [0, 1]).reveal_upto = 2 ∧
    (markSeq pyrReset [0, 1, 2]).reveal_upto = 3 ∧
    (markSeq pyrReset [0, 1, 2, 3]).reveal_upto = 4 ∧
    (markSeq pyrReset [0, 1, 2, 3, 4]).reveal_upto = 5 ∧
    (markSeq pyrReset [0, 1, 2, 3, 4, 5]).reveal_upto = 5 ∧
    all_correct pyrReset = false ∧
    all_correct (markSeq pyrReset [0]) = false ∧
    all_correct (markSeq pyrReset [0, 1]) = false ∧
    all_correct (markSeq pyrReset [0, 1, 2]) = false ∧
    all_correct (markSeq pyrReset [0, 1, 2, 3]) = false ∧
    all_correct (markSeq pyrReset [0, 1, 2, 3, 4]) = false ∧
    all_correct (markSeq pyrReset [0, 1, 2, 3, 4, 5]) = true ∧
    current_index (unmark_all (markSeq pyrReset [0, 1, 2, 3, 4, 5])) = 0 ∧
    (unmark_all (markSeq pyrReset [0, 1, 2, 3, 4, 5])).reveal_upto = 0 :=
  pyramid_in_order_progression pyrReset rfl rfl

/-- C5: in every state reachable from a loaded chain by reveal and guess
operations, the first and last word keep all reveal flags true and
`withheld_last` false, and their mask is the full stored word. -/
theorem chain_endpoints_always_revealed (ws : List (List Char)) (st0 : ChainState)
    (h : mkGameState ws = some st0) (ops : List ChainOp) (idx : Nat)
    (hidx : idx = 0 ∨ idx = (runOps st0 ops).words.length - 1) :
    ((runOps st0 ops).revealed.getD idx []).all id = true ∧
    (runOps st0 ops).withheld_last.getD idx false = false ∧
    word_mask (runOps st0 ops) idx = (runOps st0 ops).words.getD idx [] := by
  obtain ⟨h1, h2, h3, h4⟩ :=
    endpointInv_runOps st0 ops (endpointInv_mkGameState ws st0 h)
  refine ⟨?_, ?_, ?_⟩
  · rcases hidx with h0 | hL
    · subst h0
      rw [h1]
      simp
    · subst hL
      rw [h2]
      simp
  · rcases hidx with h0 | hL
    · subst h0
      exact h3
    · subst hL
      exact h4
  · rw [word_mask]
    dsimp only
    rw [if_pos hidx]

theorem chain_endpoints_always_revealed_witness :
    ((runOps chainSt0 [ChainOp.reveal 1]).revealed.getD 0 []).all id = true ∧
    (runOps chainSt0 [ChainOp.reveal 1]).withheld_last.getD 0 false = false ∧
    word_mask (runOps chainSt0 [ChainOp.reveal 1]) 0
      = (runOps chainSt0 [ChainOp.reveal 1]).words.getD 0 [] :=
  chain_endpoints_always_revealed sampleWords chainSt0 (by decide)
    [ChainOp.reveal 1] 0 (Or.inl rfl)

/-- C6: `try_guess` on an interior word returns true exactly when the
trimmed, uppercased guess equals the stored word; on a match it fully
reveals the word and clears `withheld_last`, and on a mismatch the state
is unchanged. -/
theorem try_guess_spec (st : ChainState) (idx : Nat) (g : List Char)
    (_h0 : 0 < idx) (_h1 : idx < st.words.length - 1) :
    ((try_guess st idx g).2 = true ↔ pyUpper (pyStrip g) = st.words.getD idx []) ∧
    (pyUpper (pyStrip g) = st.words.getD idx [] →
      (try_guess st idx g).1
        = { st with
              revealed := st.revealed.set idx
                (List.replicate (st.words.getD idx []).length true)
              withheld_last := st.withheld_last.set idx false } ∧
      is_word_complete (try_guess st idx g).1 idx = true ∧
      (try_guess st idx g).1.withheld_last.getD idx false = false) ∧
    (pyUpper (pyStrip g) ≠ st.words.getD idx [] → (try_guess st idx g).1 = st) := by
  rw [try_guess]
  by_cases hm : pyUpper (pyStrip g) = st.words.getD idx []
  · rw [if_pos hm]
    refine ⟨iff_of_true rfl hm, fun _ => ⟨rfl, ?_, ?_⟩, fun hn => absurd hm hn⟩
    · rw [is_word_complete]
      dsimp only
      rw [getD_set_same]
      split
      · simp
      · rename_i hge
        rw [getD_of_length_le _ _ (Nat.le_of_not_lt hge)]
        rfl
    · dsimp only
      rw [getD_set_same]
      split
      · rfl
      · rename_i hge
        exact getD_of_length_le _ _ (Nat.le_of_not_lt hge)
  · rw [if_neg hm]
    exact ⟨iff_of_false (by simp) hm, fun hmm => absurd hmm hm, fun _ => rfl⟩

theorem try_guess_spec_witness :
    ((try_guess chainSt5 1 " power ".data).2 = true ↔
        pyUpper (pyStrip " power ".data) = chainSt5.words.getD 1 []) ∧
    (pyUpper (pyStrip " power ".data) = chainSt5.words.getD 1 [] →
      (try_guess chainSt5 1 " power ".data).1
        = { chainSt5 with
              revealed := chainSt5.revealed.set 1
                (List.replicate (chainSt5.words.getD 1 []).length true)
              withheld_last := chainSt5.withheld_last.set 1 false } ∧
      is_word_complete (try_guess chainSt5 1 " power ".data).1 1 = true ∧
      (try_guess chainSt5 1 " power ".data).1.withheld_last.getD 1 false = false) ∧
    (pyUpper (pyStrip " power ".data) ≠ chainSt5.words.getD 1 [] →
      (try_guess chainSt5 1 " power ".data).1 = chainSt5) :=
  try_guess_spec chainSt5 1 " power ".data (by decide) (by decide)

/-- C7: in every state reachable from a loaded chain, a set
`withheld_last` flag on an interior word means exactly one of its reveal
flags is false. -/
theorem chain_withheld_means_one_hidden (ws : List (List Char)) (st0 : ChainState)
    (h : mkGameState ws = some st0) (ops : List ChainOp) (i : Nat)
    (_h0 : 0 < i) (_h1 : i < (runOps st0 ops).words.length - 1)
    (hw : (runOps st0 ops).withheld_last.getD i false = true) :
    (((runOps st0 ops).revealed.getD i []).filter (fun b => !b)).length = 1 :=
  withheldInv_runOps st0 ops (withheldInv_mkGameState ws st0 h) i hw

theorem chain_withheld_means_one_hidden_witness :
    (((runOps chainSt0 [ChainOp.reveal 1, ChainOp.reveal 1, ChainOp.reveal 1,
          ChainOp.reveal 1, ChainOp.reveal 1]).revealed.getD 1 []).filter
        (fun b => !b)).length = 1 :=
  chain_withheld_means_one_hidden sampleWords chainSt0 (by decide)
    [ChainOp.reveal 1, ChainOp.reveal 1, ChainOp.reveal 1,
     ChainOp.reveal 1, ChainOp.reveal 1] 1 (by decide) (by decide) (by decide)

/-- C8: `_is_puzzle_solved` is true exactly when every interior word is
complete, and it is false on every freshly loaded chain (a loaded chain
always has at least one interior word, each of nonzero length). -/
theorem is_puzzle_solved_spec :
    (∀ st : ChainState, is_puzzle_solved st = true ↔
      ∀ i, 0 < i → i < st.words.length - 1 → is_word_complete st i = true) ∧
    (∀ rawLines st, load_chain rawLines = some st →
      is_puzzle_solved st = false) := by
  constructor
  · intro st
    rw [is_puzzle_solved, List.all_eq_true]
    constructor
    · intro hall i hi0 hiL
      exact hall i (List.mem_range'.mpr ⟨i - 1, by omega, by omega⟩)
    · intro hint i hi
      obtain ⟨k, hk, hik⟩ := List.mem_range'.mp hi
      exact hint i (by omega) (by omega)
  · intro raw st h
    rw [load_chain] at h
    split at h
    · cases h
    · rename_i hlen
      obtain ⟨hlen3, hwords, _, hrev⟩ := mkGameState_some _ st h
      set lines := (raw.map pyStrip).filter (fun l => l ≠ []) with hlines
      -- the interior word at index 1 is nonempty and fully hidden
      have hlenw : st.words.length = lines.length := by
        rw [hwords]
        simp
      have h1lt : 1 < lines.length := by omega
      have hmem : lines.getD 1 [] ∈ lines := by
        rw [List.getD_eq_getElem _ _ h1lt]
        exact List.getElem_mem h1lt
      have hne : pyStrip (lines.getD 1 []) ≠ [] := by
        have h2 := List.mem_filter.mp hmem
        obtain ⟨x, _, hx⟩ := List.mem_map.mp h2.1
        have : lines.getD 1 [] ≠ [] := by simpa using h2.2
        rw [← hx] at this ⊢
        exact pyStrip_pyStrip_ne_nil x this
      have hword1 : st.words.getD 1 [] = pyUpper (pyStrip (lines.getD 1 [])) := by
        rw [hwords, List.getD_eq_getElem?_getD, List.getElem?_map,
          List.getElem?_eq_getElem h1lt, List.getD_eq_getElem _ _ h1lt]
        rfl
      have hpos : 0 < (st.words.getD 1 []).length := by
        rw [hword1, pyUpper, List.length_map]
        exact List.length_pos.mpr hne
      have hrev1 : st.revealed.getD 1 []
          = List.replicate (st.words.getD 1 []).length false := by
        have := hrev 1 (by omega)
        rw [if_neg (by omega)] at this
        exact this
      have hnc : is_word_complete st 1 = false := by
        rw [is_word_complete, hrev1]
        cases hn : (st.words.getD 1 []).length with
        | zero => omega
        | succ k => simp [List.replicate]
      cases hps : is_puzzle_solved st with
      | false => rfl
      | true =>
          have := (List.all_eq_true.mp (by rw [← is_puzzle_solved]; exact hps)) 1
            (List.mem_range'.mpr ⟨0, by omega, by omega⟩)
          rw [hnc] at this
          cases this

theorem is_puzzle_solved_spec_witness :
    is_puzzle_solved chainSt0 = false :=
  is_puzzle_solved_spec.2 sampleWords chainSt0 (by decide)

/-- C9: on the sample chain, `mask(1)` starts empty, becomes `"P"` after
one reveal, and the fifth reveal call returns `(false, true)` leaving
`mask(1) = "POWE ?"`. -/
theorem chain_scenario :
    mkGameState sampleWords = some chainSt0 ∧
    word_mask chainSt0 1 = "".data ∧
    word_mask chainSt1 1 = "P".data ∧
    (reveal_next_letter chainSt4 1).2 = (false, true) ∧
    word_mask chainSt5 1 = "POWE ?".data := by
  refine ⟨by decide, by decide, by decide, by decide, by decide⟩

/-- C10: `try_guess` on an endpoint of a reachable state changes nothing
(the endpoint is already fully revealed), while its boolean result still
reports whether the trimmed, uppercased guess matches the word. -/
theorem try_guess_endpoint_noop (ws : List (List Char)) (st0 : ChainState)
    (h : mkGameState ws = some st0) (ops : List ChainOp) (idx : Nat) (g : List Char)
    (hidx : idx = 0 ∨ idx = (runOps st0 ops).words.length - 1) :
    (try_guess (runOps st0 ops) idx g).1 = runOps st0 ops ∧
    ((try_guess (runOps st0 ops) idx g).2 = true ↔
      pyUpper (pyStrip g) = (runOps st0 ops).words.getD idx []) := by
  obtain ⟨h1, h2, h3, h4⟩ :=
    endpointInv_runOps st0 ops (endpointInv_mkGameState ws st0 h)
  set st := runOps st0 ops with hst
  rw [try_guess]
  by_cases hm : pyUpper (pyStrip g) = st.words.getD idx []
  · rw [if_pos hm]
    refine ⟨?_, iff_of_true rfl hm⟩
    rcases hidx with hi0 | hiL
    · subst hi0
      have e1 : st.revealed.set 0 (List.replicate (st.words.getD 0 []).length true)
          = st.revealed := by
        rw [← h1]
        exact set_getD_self _ _ _
      have e2 : st.withheld_last.set 0 false = st.withheld_last := by
        conv in false => rw [← h3]
        exact set_getD_self _ _ _
      rw [e1, e2]
    · subst hiL
      have e1 : st.revealed.set (st.words.length - 1)
            (List.replicate (st.words.getD (st.words.length - 1) []).length true)
          = st.revealed := by
        rw [← h2]
        exact set_getD_self _ _ _
      have e2 : st.withheld_last.set (st.words.length - 1) false
          = st.withheld_last := by
        conv in false => rw [← h4]
        exact set_getD_self _ _ _
      rw [e1, e2]
  · rw [if_neg hm]
    exact ⟨rfl, iff_of_false (by simp) hm⟩

theorem try_guess_endpoint_noop_witness :
    (try_guess (runOps chainSt0 []) 0 "solar".data).1 = runOps chainSt0 [] ∧
    ((try_guess (runOps chainSt0 []) 0 "solar".data).2 = true ↔
      pyUpper (pyStrip "solar".data) = (runOps chainSt0 []).words.getD 0 []) :=
  try_guess_endpoint_noop sampleWords chainSt0 (by decide) [] 0 "solar".data
    (Or.inl rfl)

end WordConnector
